import Mathlib

/-! Overflow-checked repeated addition and subtraction.

A shallow embedding of `add_numbers` and `subtract_numbers` from
`1-3_NumericOverflows/NumericOverflows.cpp`, together with theorems about them.

The two C++ functions are templates over a numeric type `T`.  The embedding keeps
that shape: both functions are written once, over a record `NumericLimits T` that
carries what the template body reads from `std::numeric_limits<T>` and the
arithmetic of `T`.  The built-in integer types are instances of that record over
mathematical integers, with two's-complement wrap-around made explicit, so that
"the arithmetic did not wrap" is something to be proved and not something assumed.
The floating-point types are instances over `FVal`: finite values on the grid of the
format, infinities and NaN, with every operation rounded to nearest, ties to even.
-/

namespace NumericOverflows

/-! ## The numeric type a template instance works with -/

/-- What the template bodies use of a numeric type `T`: the members of
`std::numeric_limits<T>` they read, the literal `0`, the comparison `<`
(`a > b` is `lt b a`), the value of the expressions `a + b`, `a - b` and `-a`, and
the conversion back to `T` that a compound assignment `result += x` performs. -/
structure NumericLimits (T : Type) where
  is_integer : Bool
  is_signed : Bool
  max : T
  min : T
  lowest : T
  zero : T
  lt : T → T → Bool
  add : T → T → T
  sub : T → T → T
  neg : T → T
  assign : T → T

/-! ## The two functions -/

/-- One iteration of the loop of `add_numbers` (source lines 22-74): `none` is the
early `return std::make_pair(false, result)`, `some r` is the accumulator after
`result += increment`. -/
def add_body {T : Type} (L : NumericLimits T) (result increment : T) : Option T :=
  if L.is_integer then
    if L.lt L.zero increment then
      if L.lt (L.sub L.max increment) result then none
      else some (L.assign (L.add result increment))
    else if L.lt increment L.zero && L.is_signed then
      if L.lt result (L.sub L.min increment) then none
      else some (L.assign (L.add result increment))
    else some (L.assign (L.add result increment))
  else
    if L.lt L.zero increment then
      if L.lt (L.sub L.max increment) result then none
      else some (L.assign (L.add result increment))
    else if L.lt increment L.zero then
      if L.lt result (L.neg L.max) then
        if L.lt result (L.sub L.lowest increment) then none
        else some (L.assign (L.add result increment))
      else some (L.assign (L.add result increment))
    else some (L.assign (L.add result increment))

/-- The loop of `add_numbers` with `n` iterations left and accumulator `result`. -/
def add_loop {T : Type} (L : NumericLimits T) (increment : T) : Nat → T → Bool × T
  | 0, result => (true, result)
  | n + 1, result =>
    match add_body L result increment with
    | none => (false, result)
    | some r => add_loop L increment n r

/-- The function `add_numbers<T>(start, increment, steps)`. -/
def add_numbers {T : Type} (L : NumericLimits T) (start increment : T) (steps : Nat) :
    Bool × T :=
  add_loop L increment steps start

/-- One iteration of the loop of `subtract_numbers` (source lines 94-140). -/
def subtract_body {T : Type} (L : NumericLimits T) (result decrement : T) : Option T :=
  if L.is_integer then
    if L.lt L.zero decrement then
      if L.lt result (L.add L.min decrement) then none
      else some (L.assign (L.sub result decrement))
    else if L.lt decrement L.zero && L.is_signed then
      if L.lt (L.add L.max decrement) result then none
      else some (L.assign (L.sub result decrement))
    else some (L.assign (L.sub result decrement))
  else
    if L.lt L.zero decrement then
      if L.lt result (L.add L.lowest decrement) then none
      else some (L.assign (L.sub result decrement))
    else if L.lt decrement L.zero then
      if L.lt (L.add L.max decrement) result then none
      else some (L.assign (L.sub result decrement))
    else some (L.assign (L.sub result decrement))

/-- The loop of `subtract_numbers` with `n` iterations left and accumulator `result`. -/
def subtract_loop {T : Type} (L : NumericLimits T) (decrement : T) : Nat → T → Bool × T
  | 0, result => (true, result)
  | n + 1, result =>
    match subtract_body L result decrement with
    | none => (false, result)
    | some r => subtract_loop L decrement n r

/-- The function `subtract_numbers<T>(start, decrement, steps)`. -/
def subtract_numbers {T : Type} (L : NumericLimits T) (start decrement : T) (steps : Nat) :
    Bool × T :=
  subtract_loop L decrement steps start

/-- Every value the accumulator `result` of `add_numbers` holds during a run, in
order: the initial value, then the value after each executed `result += increment`. -/
def add_states {T : Type} (L : NumericLimits T) (increment : T) : Nat → T → List T
  | 0, result => [result]
  | n + 1, result =>
    match add_body L result increment with
    | none => [result]
    | some r => result :: add_states L increment n r

/-- Every value the accumulator `result` of `subtract_numbers` holds during a run. -/
def subtract_states {T : Type} (L : NumericLimits T) (decrement : T) : Nat → T → List T
  | 0, result => [result]
  | n + 1, result =>
    match subtract_body L result decrement with
    | none => [result]
    | some r => result :: subtract_states L decrement n r

/-! ## The built-in integer types -/

/-- The widths of the integer types the program instantiates the templates with. -/
inductive Width where
  | w8
  | w16
  | w32
  | w64
  deriving DecidableEq, Repr

/-- Number of bits of a width. -/
def Width.bits : Width → Nat
  | .w8 => 8
  | .w16 => 16
  | .w32 => 32
  | .w64 => 64

/-- An integer kind: signedness and width. -/
structure IntKind where
  signed : Bool
  width : Width
  deriving DecidableEq, Repr

/-- Reduction of a mathematical integer into the value range of a `bits`-wide
two's-complement (signed) or modular (unsigned) machine integer. -/
def wrap (signed : Bool) (bits : Nat) (x : Int) : Int :=
  if signed then (x + 2 ^ (bits - 1)) % 2 ^ bits - 2 ^ (bits - 1) else x % 2 ^ bits

namespace IntKind

/-- Value of `std::numeric_limits<T>::min()`. -/
def MIN (k : IntKind) : Int :=
  if k.signed then -(2 ^ (k.width.bits - 1)) else 0

/-- Value of `std::numeric_limits<T>::max()`. -/
def MAX (k : IntKind) : Int :=
  if k.signed then 2 ^ (k.width.bits - 1) - 1 else 2 ^ k.width.bits - 1

/-- Signedness of the type in which `a + b` and `a - b` are evaluated: operands
narrower than `int` are promoted to (signed, 32-bit) `int`. -/
def arithSigned (k : IntKind) : Bool :=
  if k.width.bits < 32 then true else k.signed

/-- Width of the type in which `a + b` and `a - b` are evaluated. -/
def arithBits (k : IntKind) : Nat :=
  if k.width.bits < 32 then 32 else k.width.bits

/-- A value is representable in the kind. -/
def inRange (k : IntKind) (x : Int) : Prop :=
  k.MIN ≤ x ∧ x ≤ k.MAX

instance (k : IntKind) (x : Int) : Decidable (k.inRange x) := by
  unfold inRange; infer_instance

/-- The instance of the template parameter for an integer kind.  Values are
mathematical integers; an arithmetic expression yields its value wrapped into the
promoted type, and assignment wraps into the kind itself. -/
def limits (k : IntKind) : NumericLimits Int where
  is_integer := true
  is_signed := k.signed
  max := k.MAX
  min := k.MIN
  lowest := k.MIN
  zero := 0
  lt := fun a b => decide (a < b)
  add := fun a b => wrap k.arithSigned k.arithBits (a + b)
  sub := fun a b => wrap k.arithSigned k.arithBits (a - b)
  neg := fun a => wrap k.arithSigned k.arithBits (-a)
  assign := fun a => wrap k.signed k.width.bits a

end IntKind

/-- The signed 8-bit kind. -/
def int8 : IntKind := ⟨true, .w8⟩

/-- The unsigned 8-bit kind. -/
def uint8 : IntKind := ⟨false, .w8⟩

/-- The two calls `test_overflow<T>()` makes and prints (source lines 146-170):
`steps = 5`, `increment = max() / steps` converted to `T`, `start = 0`; the first call
runs `steps` iterations and the second `steps + 1`. -/
def test_overflow (k : IntKind) : (Bool × Int) × (Bool × Int) :=
  let steps : Nat := 5
  let increment : Int := k.limits.assign (k.MAX / steps)
  let start : Int := k.limits.zero
  (add_numbers k.limits start increment steps,
   add_numbers k.limits start increment (steps + 1))

/-- The two calls `test_underflow<T>()` makes and prints (source lines 172-196), for an
integer `T`: `steps = 5`, `decrement = max() / steps` converted to `T`, `start = max()`;
the first call runs `steps` iterations and the second `steps + 1`. -/
def test_underflow (k : IntKind) : (Bool × Int) × (Bool × Int) :=
  let steps : Nat := 5
  let decrement : Int := k.limits.assign (k.MAX / steps)
  let start : Int := k.limits.max
  (subtract_numbers k.limits start decrement steps,
   subtract_numbers k.limits start decrement (steps + 1))

/-! ## The floating-point types -/

/-- The binary floating-point formats a `float`, `double` or `long double` can have:
IEEE 754 binary32, binary64 and binary128, and the x87 80-bit extended format. -/
inductive FloatKind where
  | binary32
  | binary64
  | x87
  | binary128
  deriving DecidableEq, Repr

/-- A floating-point datum.  A finite value is counted in units of the least positive
subnormal number of its format, so `fin k` stands for `k * 2 ^ (2 - emax - prec)`; the
sign of a zero is not recorded. -/
inductive FVal where
  | fin (k : Int)
  | pinf
  | ninf
  | nan
  deriving DecidableEq, Repr

/-- Bit length of `n < 2 ^ 2 ^ (k + 1)` by halving the window `k` times. -/
def bitsAux : Nat → Nat → Nat
  | 0, n => if n = 0 then 0 else 1
  | k + 1, n => if n >>> 2 ^ k = 0 then bitsAux k n else 2 ^ k + bitsAux k (n >>> 2 ^ k)

/-- Number of binary digits of `n`, for `n < 2 ^ 2 ^ 18`. -/
def bitLength (n : Nat) : Nat := bitsAux 18 n

/-- Round the non-negative rational `n / d` to `p` significant bits, to nearest with
ties to even, on the grid of whole units (the exponent is unbounded above). -/
def roundNE (p n d : Nat) : Nat :=
  let s := bitLength (n / d) - p
  let D := d <<< s
  let q := n / D
  let r := n % D
  let q' := if 2 * r < D then q else if D < 2 * r then q + 1 else if q % 2 = 0 then q else q + 1
  q' <<< s

namespace FloatKind

/-- Number of significand bits. -/
def prec : FloatKind → Nat
  | .binary32 => 24
  | .binary64 => 53
  | .x87 => 64
  | .binary128 => 113

/-- Largest exponent. -/
def emax : FloatKind → Nat
  | .binary32 => 127
  | .binary64 => 1023
  | .x87 => 16383
  | .binary128 => 16383

/-- The largest finite value, `(2 ^ prec - 1) * 2 ^ (emax - prec + 1)`, in units. -/
def MAX (f : FloatKind) : Int :=
  (((2 ^ f.prec - 1) <<< (2 * f.emax - 1) : Nat) : Int)

/-- The number `1`, in units. -/
def one (f : FloatKind) : Nat := 1 <<< (f.emax + f.prec - 2)

/-- The datum an operation delivers when its exact result is `n / d` units: the
rounded value, or an infinity when that exceeds the largest finite value. -/
def ofExact (f : FloatKind) (n : Int) (d : Nat) : FVal :=
  let m : Int := roundNE f.prec n.natAbs d
  if f.MAX < m then (if n < 0 then .ninf else .pinf)
  else .fin (if n < 0 then -m else m)

/-- Negation. -/
def neg : FVal → FVal
  | .fin k => .fin (-k)
  | .pinf => .ninf
  | .ninf => .pinf
  | .nan => .nan

/-- Addition. -/
def add (f : FloatKind) : FVal → FVal → FVal
  | .fin a, .fin b => ofExact f (a + b) 1
  | .nan, _ => .nan
  | _, .nan => .nan
  | .pinf, .ninf => .nan
  | .ninf, .pinf => .nan
  | .pinf, _ => .pinf
  | .ninf, _ => .ninf
  | _, .pinf => .pinf
  | _, .ninf => .ninf

/-- The comparison `a < b`. -/
def lt : FVal → FVal → Bool
  | .fin a, .fin b => decide (a < b)
  | .nan, _ => false
  | _, .nan => false
  | .ninf, .ninf => false
  | .ninf, _ => true
  | .pinf, _ => false
  | _, .pinf => true
  | _, .ninf => false

/-- Division of finite values (the only case the program uses); a zero divisor
gives an infinity or NaN. -/
def div (f : FloatKind) : FVal → FVal → FVal
  | .fin a, .fin b =>
    if b = 0 then (if a = 0 then .nan else if a < 0 then .ninf else .pinf)
    else ofExact f (a.sign * b.sign * (a.natAbs * f.one : Nat)) b.natAbs
  | _, _ => .nan

/-- Conversion of an `unsigned long` to the floating-point type. -/
def ofUnsigned (f : FloatKind) (n : Nat) : FVal := ofExact f ((n * f.one : Nat) : Int) 1

/-- The instance of the template parameter for a floating-point kind. -/
def limits (f : FloatKind) : NumericLimits FVal where
  is_integer := false
  is_signed := true
  max := .fin f.MAX
  min := .fin (((1 <<< (f.prec - 1) : Nat) : Int))
  lowest := .fin (-f.MAX)
  zero := .fin 0
  lt := lt
  add := f.add
  sub := fun a b => f.add a (neg b)
  neg := neg
  assign := fun a => a

/-- The data of a format: the infinities, NaN, and the finite values that do not exceed
`max()` in magnitude and lie on the grid of the format, that is, whose magnitude has
only zero bits below its `prec` leading ones. -/
def representable (f : FloatKind) : FVal → Prop
  | .fin k =>
    (k.natAbs : Int) ≤ f.MAX ∧
      (k.natAbs >>> (bitLength k.natAbs - f.prec)) <<< (bitLength k.natAbs - f.prec)
        = k.natAbs
  | _ => True

instance (f : FloatKind) (x : FVal) : Decidable (f.representable x) := by
  cases x <;> unfold representable <;> infer_instance

end FloatKind

/-- The two calls `test_overflow<T>()` makes and prints (source lines 146-170), for a
floating-point `T`: `steps = 5`, `increment = max() / steps` with `steps` converted to
`T`, `start = 0`. -/
def test_overflow_float (f : FloatKind) : (Bool × FVal) × (Bool × FVal) :=
  let steps : Nat := 5
  let increment : FVal := f.div f.limits.max (f.ofUnsigned steps)
  let start : FVal := f.ofUnsigned 0
  (add_numbers f.limits start increment steps,
   add_numbers f.limits start increment (steps + 1))

/-- The loop both functions amount to on an integer kind, written with exact integer
arithmetic: move the accumulator by `δ` as long as the moved value is representable.
It is used in proofs only; `add_loop_int` and `subtract_loop_int` relate the
embedded loops to it. -/
def checked (k : IntKind) (δ : Int) : Nat → Int → Bool × Int
  | 0, r => (true, r)
  | n + 1, r => if k.inRange (r + δ) then checked k δ n (r + δ) else (false, r)

/-- The property that singles out the first unsafe step: the first `m` steps stay
representable and step `m + 1` does not. -/
def FirstUnsafe (k : IntKind) (start δ : Int) (m : Nat) : Prop :=
  (∀ j : Nat, j ≤ m → k.inRange (start + j * δ)) ∧ ¬ k.inRange (start + (m + 1 : Nat) * δ)

/-! ## One iteration on an integer kind -/

theorem add_body_int (k : IntKind) (r inc : Int) (hr : k.inRange r) (hi : k.inRange inc) :
    add_body k.limits r inc = if k.inRange (r + inc) then some (r + inc) else none := by
  rcases k with ⟨s, w⟩
  cases s <;> cases w <;>
    simp only [add_body, IntKind.limits, IntKind.inRange, IntKind.MIN, IntKind.MAX, wrap,
      IntKind.arithSigned, IntKind.arithBits, Width.bits] at * <;>
    norm_num at * <;>
    split_ifs <;> first | omega | (simp <;> omega)

theorem subtract_body_int (k : IntKind) (r dec : Int) (hr : k.inRange r)
    (hd : k.inRange dec) :
    subtract_body k.limits r dec = if k.inRange (r + -dec) then some (r + -dec) else none := by
  rcases k with ⟨s, w⟩
  cases s <;> cases w <;>
    simp only [subtract_body, IntKind.limits, IntKind.inRange, IntKind.MIN, IntKind.MAX, wrap,
      IntKind.arithSigned, IntKind.arithBits, Width.bits] at * <;>
    norm_num at * <;>
    split_ifs <;> first | omega | (simp <;> omega)

/-! ## The loops on an integer kind -/

theorem add_loop_int (k : IntKind) (inc : Int) (hi : k.inRange inc) :
    ∀ (n : Nat) (r : Int), k.inRange r → add_loop k.limits inc n r = checked k inc n r := by
  intro n
  induction n with
  | zero => intro r _; rfl
  | succ n ih =>
    intro r hr
    simp only [add_loop, checked, add_body_int k r inc hr hi]
    by_cases h : k.inRange (r + inc)
    · simp only [h, if_true]; exact ih _ h
    · simp only [h, if_false]

theorem subtract_loop_int (k : IntKind) (dec : Int) (hd : k.inRange dec) :
    ∀ (n : Nat) (r : Int), k.inRange r →
      subtract_loop k.limits dec n r = checked k (-dec) n r := by
  intro n
  induction n with
  | zero => intro r _; rfl
  | succ n ih =>
    intro r hr
    simp only [subtract_loop, checked, subtract_body_int k r dec hr hd]
    by_cases h : k.inRange (r + -dec)
    · simp only [h, if_true]; exact ih _ h
    · simp only [h, if_false]

/-- The values `start + j * δ` between two representable ones are representable. -/
theorem inRange_between (k : IntKind) (a δ : Int) (n j : Nat) (hj : j ≤ n)
    (ha : k.inRange a) (hn : k.inRange (a + n * δ)) : k.inRange (a + j * δ) := by
  unfold IntKind.inRange at *
  have hjn : (j : Int) ≤ n := by exact_mod_cast hj
  have hj0 : (0 : Int) ≤ j := by exact_mod_cast Nat.zero_le j
  rcases le_total 0 δ with hδ | hδ
  · have h1 : (j : Int) * δ ≤ n * δ := mul_le_mul_of_nonneg_right hjn hδ
    have h2 : 0 ≤ (j : Int) * δ := mul_nonneg hj0 hδ
    constructor <;> linarith [ha.1, ha.2, hn.1, hn.2]
  · have h1 : (n : Int) * δ ≤ j * δ := mul_le_mul_of_nonpos_right hjn hδ
    have h2 : (j : Int) * δ ≤ 0 := mul_nonpos_of_nonneg_of_nonpos hj0 hδ
    constructor <;> linarith [ha.1, ha.2, hn.1, hn.2]

theorem checked_true (k : IntKind) (δ : Int) :
    ∀ (n : Nat) (r : Int), k.inRange r → k.inRange (r + n * δ) →
      checked k δ n r = (true, r + n * δ) := by
  intro n
  induction n with
  | zero => intro r _ _; simp [checked]
  | succ n ih =>
    intro r hr hn
    have h1 : k.inRange (r + δ) := by
      have := inRange_between k r δ (n + 1) 1 (by omega) hr hn
      simpa using this
    have h2 : k.inRange (r + δ + n * δ) := by
      have e : r + δ + n * δ = r + ((n + 1 : Nat) : Int) * δ := by push_cast; ring
      rw [e]; exact hn
    simp only [checked, h1, if_true, ih _ h1 h2]
    congr 1; push_cast; ring

theorem checked_false (k : IntKind) (δ : Int) :
    ∀ (n : Nat) (r : Int), k.inRange r → ¬ k.inRange (r + n * δ) →
      ∃ m : Nat, m < n ∧ FirstUnsafe k r δ m ∧ checked k δ n r = (false, r + m * δ) := by
  intro n
  induction n with
  | zero => intro r hr hn; exact absurd (by simpa using hr) hn
  | succ n ih =>
    intro r hr hn
    by_cases h1 : k.inRange (r + δ)
    · have h2 : ¬ k.inRange (r + δ + n * δ) := by
        have e : r + δ + n * δ = r + ((n + 1 : Nat) : Int) * δ := by push_cast; ring
        rw [e]; exact hn
      obtain ⟨m, hm, ⟨hall, hbad⟩, hv⟩ := ih _ h1 h2
      refine ⟨m + 1, by omega, ⟨?_, ?_⟩, ?_⟩
      · intro j hj
        cases j with
        | zero => simpa using hr
        | succ j =>
          have := hall j (by omega)
          have e : r + ((j + 1 : Nat) : Int) * δ = r + δ + j * δ := by push_cast; ring
          rw [e]; exact this
      · have e : r + ((m + 1 + 1 : Nat) : Int) * δ = r + δ + ((m + 1 : Nat) : Int) * δ := by
          push_cast; ring
        rw [e]; exact hbad
      · simp only [checked, h1, if_true, hv]
        congr 1; push_cast; ring
    · refine ⟨0, by omega, ⟨?_, ?_⟩, ?_⟩
      · intro j hj
        have : j = 0 := by omega
        subst this; simpa using hr
      · simpa using h1
      · simp [checked, h1]

/-- At most one step count is the first unsafe one. -/
theorem firstUnsafe_unique (k : IntKind) (start δ : Int) (m m' : Nat)
    (h : FirstUnsafe k start δ m) (h' : FirstUnsafe k start δ m') : m' = m := by
  rcases Nat.lt_trichotomy m m' with hlt | heq | hgt
  · exact absurd (h'.1 (m + 1) hlt) h.2
  · exact heq.symm
  · exact absurd (h.1 (m' + 1) hgt) h'.2

/-- Once the first unsafe step is known, the outcome for every step count is known. -/
theorem checked_of_firstUnsafe (k : IntKind) (r δ : Int) (m : Nat) (hr : k.inRange r)
    (h : FirstUnsafe k r δ m) (n : Nat) :
    checked k δ n r = if n ≤ m then (true, r + n * δ) else (false, r + m * δ) := by
  by_cases hn : n ≤ m
  · simp only [hn, if_true]
    exact checked_true k δ n r hr (h.1 n hn)
  · simp only [hn, if_false]
    have hbad : ¬ k.inRange (r + n * δ) := fun hin =>
      h.2 (inRange_between k r δ n (m + 1) (by omega) hr hin)
    obtain ⟨m', _, hm', hv⟩ := checked_false k δ n r hr hbad
    rw [hv, firstUnsafe_unique k r δ m m' h hm']

/-- A successful run ends on a representable `r + n * δ`. -/
theorem checked_success (k : IntKind) (δ : Int) (n : Nat) (r v : Int) (hr : k.inRange r)
    (h : checked k δ n r = (true, v)) : k.inRange (r + n * δ) ∧ v = r + n * δ := by
  by_cases hin : k.inRange (r + n * δ)
  · rw [checked_true k δ n r hr hin] at h
    exact ⟨hin, (Prod.mk.inj h).2.symm⟩
  · obtain ⟨m, _, _, hv⟩ := checked_false k δ n r hr hin
    rw [hv] at h
    exact absurd (Prod.mk.inj h).1 (by decide)

/-- A failed run has a first unsafe step before `n`, and returns the value there. -/
theorem checked_failure (k : IntKind) (δ : Int) (n : Nat) (r v : Int) (hr : k.inRange r)
    (h : checked k δ n r = (false, v)) :
    ∃ m : Nat, m < n ∧ FirstUnsafe k r δ m ∧ v = r + m * δ := by
  by_cases hin : k.inRange (r + n * δ)
  · rw [checked_true k δ n r hr hin] at h
    exact absurd (Prod.mk.inj h).1 (by decide)
  · obtain ⟨m, hm, hfu, hv⟩ := checked_false k δ n r hr hin
    rw [hv] at h
    exact ⟨m, hm, hfu, (Prod.mk.inj h).2.symm⟩

/-! ## The accumulator values of a run -/

theorem add_states_getLast {T : Type} (L : NumericLimits T) (increment : T) :
    ∀ (n : Nat) (r : T),
      (add_states L increment n r).getLast? = some (add_loop L increment n r).2 := by
  intro n
  induction n with
  | zero => intro r; rfl
  | succ n ih =>
    intro r
    unfold add_states add_loop
    cases hb : add_body L r increment with
    | none => rfl
    | some r' =>
      simp only
      have := ih r'
      cases hl : add_states L increment n r' with
      | nil => rw [hl] at this; simp at this
      | cons a l => rw [hl] at this; rw [List.getLast?_cons_cons]; exact this

theorem subtract_states_getLast {T : Type} (L : NumericLimits T) (decrement : T) :
    ∀ (n : Nat) (r : T),
      (subtract_states L decrement n r).getLast? = some (subtract_loop L decrement n r).2 := by
  intro n
  induction n with
  | zero => intro r; rfl
  | succ n ih =>
    intro r
    unfold subtract_states subtract_loop
    cases hb : subtract_body L r decrement with
    | none => rfl
    | some r' =>
      simp only
      have := ih r'
      cases hl : subtract_states L decrement n r' with
      | nil => rw [hl] at this; simp at this
      | cons a l => rw [hl] at this; rw [List.getLast?_cons_cons]; exact this

theorem add_states_int (k : IntKind) (inc : Int) (hi : k.inRange inc) :
    ∀ (n : Nat) (r : Int), k.inRange r →
      (∀ v ∈ add_states k.limits inc n r, k.inRange v) ∧
      List.Chain (fun a b => b = a + inc) r (add_states k.limits inc n r).tail ∧
      (add_states k.limits inc n r).head? = some r := by
  intro n
  induction n with
  | zero => intro r hr; simp [add_states, hr]
  | succ n ih =>
    intro r hr
    simp only [add_states, add_body_int k r inc hr hi]
    by_cases h : k.inRange (r + inc)
    · simp only [h, if_true]
      obtain ⟨h1, h2, h3⟩ := ih _ h
      refine ⟨?_, ?_, by simp⟩
      · intro v hv
        rcases List.mem_cons.1 hv with rfl | hv
        · exact hr
        · exact h1 v hv
      · cases hl : add_states k.limits inc n (r + inc) with
        | nil => rw [hl] at h3; simp at h3
        | cons a l =>
          rw [hl] at h2 h3
          simp only [List.head?_cons, Option.some.injEq] at h3
          simp only [List.tail_cons] at h2 ⊢
          exact List.Chain.cons h3 (h3 ▸ h2)
    · simp [h, hr]

theorem subtract_states_int (k : IntKind) (dec : Int) (hd : k.inRange dec) :
    ∀ (n : Nat) (r : Int), k.inRange r →
      (∀ v ∈ subtract_states k.limits dec n r, k.inRange v) ∧
      List.Chain (fun a b => b = a - dec) r (subtract_states k.limits dec n r).tail ∧
      (subtract_states k.limits dec n r).head? = some r := by
  intro n
  induction n with
  | zero => intro r hr; simp [subtract_states, hr]
  | succ n ih =>
    intro r hr
    simp only [subtract_states, subtract_body_int k r dec hr hd]
    by_cases h : k.inRange (r + -dec)
    · simp only [h, if_true]
      obtain ⟨h1, h2, h3⟩ := ih _ h
      refine ⟨?_, ?_, by simp⟩
      · intro v hv
        rcases List.mem_cons.1 hv with rfl | hv
        · exact hr
        · exact h1 v hv
      · cases hl : subtract_states k.limits dec n (r + -dec) with
        | nil => rw [hl] at h3; simp at h3
        | cons a l =>
          rw [hl] at h2 h3
          simp only [List.head?_cons, Option.some.injEq] at h3
          simp only [List.tail_cons] at h2 ⊢
          exact List.Chain.cons (by rw [h3]; ring) (h3 ▸ h2)
    · simp [h, hr]

/-! ## The contract of the two functions on the integer kinds -/

/-- C1: on every integer kind, for representable `start` and `increment` and every
step count `n`, `add_numbers` reports success exactly when `start + n * increment` lies
in `[MIN, MAX]`, and the value it then returns is `start + n * increment`. -/
theorem add_numbers_success_iff (k : IntKind) (start increment : Int) (n : Nat)
    (hs : k.inRange start) (hi : k.inRange increment) :
    ((add_numbers k.limits start increment n).1 = true ↔
        k.inRange (start + n * increment)) ∧
      ((add_numbers k.limits start increment n).1 = true →
        (add_numbers k.limits start increment n).2 = start + n * increment) := by
  unfold add_numbers
  rw [add_loop_int k increment hi n start hs]
  by_cases hin : k.inRange (start + n * increment)
  · rw [checked_true k increment n start hs hin]
    exact ⟨⟨fun _ => hin, fun _ => rfl⟩, fun _ => rfl⟩
  · obtain ⟨m, _, _, hv⟩ := checked_false k increment n start hs hin
    rw [hv]
    exact ⟨⟨fun h => absurd h Bool.false_ne_true, fun h => absurd h hin⟩,
      fun h => absurd h Bool.false_ne_true⟩

theorem add_numbers_success_iff_witness :
    ((add_numbers int8.limits (-128) 51 5).1 = true ↔ int8.inRange (-128 + (5 : Nat) * 51)) ∧
      ((add_numbers int8.limits (-128) 51 5).1 = true →
        (add_numbers int8.limits (-128) 51 5).2 = -128 + (5 : Nat) * 51) :=
  add_numbers_success_iff int8 (-128) 51 5 (by decide) (by decide)

/-- C2: on every integer kind, for representable `start` and `decrement` (for a signed
kind `decrement = MIN` included) and every step count `n`, `subtract_numbers` reports
success exactly when `start - n * decrement` lies in `[MIN, MAX]`, and the value it then
returns is `start - n * decrement`. -/
theorem subtract_numbers_success_iff (k : IntKind) (start decrement : Int) (n : Nat)
    (hs : k.inRange start) (hd : k.inRange decrement) :
    ((subtract_numbers k.limits start decrement n).1 = true ↔
        k.inRange (start - n * decrement)) ∧
      ((subtract_numbers k.limits start decrement n).1 = true →
        (subtract_numbers k.limits start decrement n).2 = start - n * decrement) := by
  unfold subtract_numbers
  rw [subtract_loop_int k decrement hd n start hs]
  have e : start - n * decrement = start + n * -decrement := by ring
  rw [e]
  by_cases hin : k.inRange (start + n * -decrement)
  · rw [checked_true k (-decrement) n start hs hin]
    exact ⟨⟨fun _ => hin, fun _ => rfl⟩, fun _ => rfl⟩
  · obtain ⟨m, _, _, hv⟩ := checked_false k (-decrement) n start hs hin
    rw [hv]
    exact ⟨⟨fun h => absurd h Bool.false_ne_true, fun h => absurd h hin⟩,
      fun h => absurd h Bool.false_ne_true⟩

theorem subtract_numbers_success_iff_witness :
    ((subtract_numbers int8.limits (-1) (-128) 1).1 = true ↔
        int8.inRange (-1 - (1 : Nat) * -128)) ∧
      ((subtract_numbers int8.limits (-1) (-128) 1).1 = true →
        (subtract_numbers int8.limits (-1) (-128) 1).2 = -1 - (1 : Nat) * -128) :=
  subtract_numbers_success_iff int8 (-1) (-128) 1 (by decide) (by decide)

/-- C3: on every integer kind, a failing `add_numbers` (respectively
`subtract_numbers`) returns the last safe accumulator `start + m * delta` (respectively
`start - m * delta`), where `m < n` is the one and only step count whose first `m` steps
stay in `[MIN, MAX]` while step `m + 1` leaves it; when the very first step is unsafe
the returned value is `start`. -/
theorem failure_returns_last_safe (k : IntKind) (start delta : Int) (n : Nat) (v : Int)
    (hs : k.inRange start) (hd : k.inRange delta) :
    (add_numbers k.limits start delta n = (false, v) →
        ∃ m : Nat, m < n ∧ FirstUnsafe k start delta m ∧ v = start + m * delta ∧
          ∀ m' : Nat, FirstUnsafe k start delta m' → m' = m) ∧
      (subtract_numbers k.limits start delta n = (false, v) →
        ∃ m : Nat, m < n ∧ FirstUnsafe k start (-delta) m ∧ v = start - m * delta ∧
          ∀ m' : Nat, FirstUnsafe k start (-delta) m' → m' = m) ∧
      (0 < n → ¬ k.inRange (start + delta) →
        add_numbers k.limits start delta n = (false, start)) ∧
      (0 < n → ¬ k.inRange (start - delta) →
        subtract_numbers k.limits start delta n = (false, start)) := by
  unfold add_numbers subtract_numbers
  rw [add_loop_int k delta hd n start hs, subtract_loop_int k delta hd n start hs]
  refine ⟨?_, ?_, ?_, ?_⟩
  · intro h
    obtain ⟨m, hm, hfu, hv⟩ := checked_failure k delta n start v hs h
    exact ⟨m, hm, hfu, hv, fun m' h' => firstUnsafe_unique k start delta m m' hfu h'⟩
  · intro h
    obtain ⟨m, hm, hfu, hv⟩ := checked_failure k (-delta) n start v hs h
    refine ⟨m, hm, hfu, ?_, fun m' h' => firstUnsafe_unique k start (-delta) m m' hfu h'⟩
    rw [hv]; ring
  · intro hn hbad
    obtain ⟨n, rfl⟩ : ∃ n', n = n' + 1 := ⟨n - 1, by omega⟩
    simp [checked, hbad]
  · intro hn hbad
    obtain ⟨n, rfl⟩ : ∃ n', n = n' + 1 := ⟨n - 1, by omega⟩
    have hbad' : ¬ k.inRange (start + -delta) := by
      have e : start + -delta = start - delta := by ring
      rw [e]; exact hbad
    simp [checked, hbad']

theorem failure_returns_last_safe_witness :
    ∃ m : Nat, m < 3 ∧ FirstUnsafe int8 0 100 m ∧ (100 : Int) = 0 + m * 100 ∧
      ∀ m' : Nat, FirstUnsafe int8 0 100 m' → m' = m :=
  (failure_returns_last_safe int8 0 100 3 100 (by decide) (by decide)).1 (by decide)

/-- C4: on every integer kind, for representable `start` and `delta`, every value the
accumulator takes during a run of `add_numbers` or `subtract_numbers` lies in
`[MIN, MAX]`, the returned value (the last of them) included; each value is the one
before it plus `delta` (respectively minus `delta`) as an exact integer, and whenever an
update is executed on a representable accumulator its result is that exact sum
(difference), so no update wraps. -/
theorem accumulator_stays_in_range (k : IntKind) (start delta : Int) (n : Nat)
    (hs : k.inRange start) (hd : k.inRange delta) :
    ((∀ v ∈ add_states k.limits delta n start, k.inRange v) ∧
        (add_states k.limits delta n start).getLast? =
          some (add_numbers k.limits start delta n).2 ∧
        k.inRange (add_numbers k.limits start delta n).2 ∧
        List.Chain (fun a b => b = a + delta) start (add_states k.limits delta n start).tail ∧
        ∀ r v : Int, k.inRange r → add_body k.limits r delta = some v →
          v = r + delta ∧ k.inRange v) ∧
      ((∀ v ∈ subtract_states k.limits delta n start, k.inRange v) ∧
        (subtract_states k.limits delta n start).getLast? =
          some (subtract_numbers k.limits start delta n).2 ∧
        k.inRange (subtract_numbers k.limits start delta n).2 ∧
        List.Chain (fun a b => b = a - delta) start
          (subtract_states k.limits delta n start).tail ∧
        ∀ r v : Int, k.inRange r → subtract_body k.limits r delta = some v →
          v = r - delta ∧ k.inRange v) := by
  obtain ⟨a1, a2, _⟩ := add_states_int k delta hd n start hs
  obtain ⟨s1, s2, _⟩ := subtract_states_int k delta hd n start hs
  have al := add_states_getLast k.limits delta n start
  have sl := subtract_states_getLast k.limits delta n start
  refine ⟨⟨a1, al, a1 _ (List.mem_of_getLast?_eq_some al), a2, ?_⟩,
    ⟨s1, sl, s1 _ (List.mem_of_getLast?_eq_some sl), s2, ?_⟩⟩
  · intro r v hr hb
    rw [add_body_int k r delta hr hd] at hb
    by_cases h : k.inRange (r + delta)
    · simp only [h, if_true, Option.some.injEq] at hb
      subst hb; exact ⟨rfl, h⟩
    · simp [h] at hb
  · intro r v hr hb
    rw [subtract_body_int k r delta hr hd] at hb
    by_cases h : k.inRange (r + -delta)
    · simp only [h, if_true, Option.some.injEq] at hb
      subst hb; exact ⟨by ring, h⟩
    · simp [h] at hb

theorem accumulator_stays_in_range_witness :
    (add_states int8.limits 100 3 0).getLast? = some (add_numbers int8.limits 0 100 3).2 ∧
      int8.inRange (add_numbers int8.limits 0 100 3).2 ∧
      (subtract_states int8.limits 100 3 0).getLast? =
        some (subtract_numbers int8.limits 0 100 3).2 ∧
      int8.inRange (subtract_numbers int8.limits 0 100 3).2 :=
  have h := accumulator_stays_in_range int8 0 100 3 (by decide) (by decide)
  ⟨h.1.2.1, h.1.2.2.1, h.2.2.1, h.2.2.2.1⟩

/-! ## Testable properties -/

/-- C5: for every numeric kind the templates are instantiated with, and every `start`
and `delta`, zero steps give `(true, start)`, for `add_numbers` and for
`subtract_numbers`. -/
theorem zero_steps {T : Type} (L : NumericLimits T) (start delta : T) :
    add_numbers L start delta 0 = (true, start) ∧
      subtract_numbers L start delta 0 = (true, start) :=
  ⟨rfl, rfl⟩

/-- A zero delta on any instance of the template whose `0` is not below itself and
leaves `x` unchanged when added to or subtracted from it. -/
theorem zero_delta_loops {T : Type} (L : NumericLimits T) (x : T)
    (h0 : L.lt L.zero L.zero = false) (hadd : L.assign (L.add x L.zero) = x)
    (hsub : L.assign (L.sub x L.zero) = x) :
    ∀ n : Nat, add_loop L L.zero n x = (true, x) ∧ subtract_loop L L.zero n x = (true, x) := by
  have hb : add_body L x L.zero = some x := by
    unfold add_body; simp [h0, hadd]
  have hc : subtract_body L x L.zero = some x := by
    unfold subtract_body; simp [h0, hsub]
  intro n
  induction n with
  | zero => exact ⟨rfl, rfl⟩
  | succ n ih => simp only [add_loop, subtract_loop, hb, hc]; exact ih

/-- The integer kinds meet the conditions of `zero_delta_loops` at every representable
value. -/
theorem int_zero_laws (k : IntKind) (x : Int) (hx : k.inRange x) :
    k.limits.lt k.limits.zero k.limits.zero = false ∧
      k.limits.assign (k.limits.add x k.limits.zero) = x ∧
      k.limits.assign (k.limits.sub x k.limits.zero) = x := by
  rcases k with ⟨s, w⟩
  cases s <;> cases w <;>
    simp only [IntKind.limits, IntKind.inRange, IntKind.MIN, IntKind.MAX, wrap,
      IntKind.arithSigned, IntKind.arithBits, Width.bits] at * <;>
    norm_num at * <;> omega

/-- A value on the grid of the format is its own rounding. -/
theorem roundNE_of_onGrid (p n : Nat)
    (h : (n >>> (bitLength n - p)) <<< (bitLength n - p) = n) : roundNE p n 1 = n := by
  unfold roundNE
  simp only [Nat.div_one]
  generalize bitLength n - p = s at h ⊢
  rw [Nat.shiftRight_eq_div_pow, Nat.shiftLeft_eq] at h
  have h2 : 0 < 2 ^ s := by positivity
  have hmod : n % 2 ^ s = 0 := by
    rw [← h]; exact Nat.mul_mod_left _ _
  rw [Nat.one_shiftLeft, hmod, Nat.shiftLeft_eq]
  simp only [Nat.mul_zero, h2, if_true]
  exact h

/-- The floating-point kinds meet the conditions of `zero_delta_loops` at every datum of
the format: `0 < 0` is false, and adding or subtracting zero gives the datum back. -/
theorem float_zero_laws (f : FloatKind) (x : FVal) (hx : f.representable x) :
    f.limits.lt f.limits.zero f.limits.zero = false ∧
      f.limits.assign (f.limits.add x f.limits.zero) = x ∧
      f.limits.assign (f.limits.sub x f.limits.zero) = x := by
  have key : ∀ a : Int, f.representable (.fin a) → f.ofExact (a + 0) 1 = .fin a := by
    intro a ha
    obtain ⟨hmax, hgrid⟩ := ha
    unfold FloatKind.ofExact
    simp only [Int.add_zero, roundNE_of_onGrid f.prec a.natAbs hgrid]
    rw [if_neg (not_lt.2 hmax)]
    congr 1
    by_cases hneg : a < 0
    · rw [if_pos hneg]; omega
    · rw [if_neg hneg]; omega
  refine ⟨by simp [FloatKind.limits, FloatKind.lt], ?_, ?_⟩
  · cases x with
    | fin a => exact key a hx
    | pinf => rfl
    | ninf => rfl
    | nan => rfl
  · cases x with
    | fin a =>
      show f.add (.fin a) (FloatKind.neg (.fin 0)) = .fin a
      simp only [FloatKind.neg, Int.neg_zero, FloatKind.add]
      exact key a hx
    | pinf => rfl
    | ninf => rfl
    | nan => rfl

/-- C6: a zero delta is never rejected.  On every integer kind, for every representable
`start` (`MIN` and `MAX` included), and on every floating-point kind, for every datum
`x` of the format (`lowest()` and `max()`, the infinities and NaN included), for every
step count `N`: `add_numbers(start, 0, N)` and `subtract_numbers(start, 0, N)` are
`(true, start)`. -/
theorem zero_delta_always_safe (k : IntKind) (start : Int) (hs : k.inRange start)
    (f : FloatKind) (x : FVal) (hx : f.representable x) (N : Nat) :
    (add_numbers k.limits start 0 N = (true, start) ∧
        subtract_numbers k.limits start 0 N = (true, start)) ∧
      (add_numbers f.limits x (.fin 0) N = (true, x) ∧
        subtract_numbers f.limits x (.fin 0) N = (true, x)) := by
  obtain ⟨i0, iadd, isub⟩ := int_zero_laws k start hs
  obtain ⟨f0, fadd, fsub⟩ := float_zero_laws f x hx
  exact ⟨zero_delta_loops k.limits start i0 iadd isub N,
    zero_delta_loops f.limits x f0 fadd fsub N⟩

theorem zero_delta_always_safe_witness :
    (add_numbers int8.limits 127 0 9 = (true, 127) ∧
        subtract_numbers int8.limits 127 0 9 = (true, 127)) ∧
      (add_numbers FloatKind.binary64.limits (.fin (-FloatKind.binary64.MAX)) (.fin 0) 9
          = (true, .fin (-FloatKind.binary64.MAX)) ∧
        subtract_numbers FloatKind.binary64.limits (.fin (-FloatKind.binary64.MAX)) (.fin 0) 9
          = (true, .fin (-FloatKind.binary64.MAX))) :=
  zero_delta_always_safe int8 127 (by decide) .binary64 (.fin (-FloatKind.binary64.MAX))
    (by decide) 9

/-- C7: on every integer kind, for representable `start` and `increment` and `N ≥ 1`:
if `add_numbers(start, increment, N)` succeeds with value `v`, then
`add_numbers(start, increment, N - 1)` succeeds too, with a value `w` such that
`v = w + increment`. -/
theorem success_monotone (k : IntKind) (start increment : Int) (N : Nat) (v : Int)
    (hs : k.inRange start) (hi : k.inRange increment) (hN : 1 ≤ N)
    (h : add_numbers k.limits start increment N = (true, v)) :
    ∃ w : Int, add_numbers k.limits start increment (N - 1) = (true, w) ∧
      v = w + increment := by
  obtain ⟨n, rfl⟩ : ∃ n, N = n + 1 := ⟨N - 1, by omega⟩
  unfold add_numbers at *
  rw [add_loop_int k increment hi _ start hs] at h ⊢
  obtain ⟨hin, hv⟩ := checked_success k increment (n + 1) start v hs h
  have hprev : k.inRange (start + n * increment) :=
    inRange_between k start increment (n + 1) n (by omega) hs hin
  refine ⟨start + n * increment, ?_, ?_⟩
  · simpa using checked_true k increment n start hs hprev
  · rw [hv]; push_cast; ring

theorem success_monotone_witness :
    ∃ w : Int, add_numbers int8.limits 0 25 (5 - 1) = (true, w) ∧ (125 : Int) = w + 25 :=
  success_monotone int8 0 25 5 125 (by decide) (by decide) (by decide) (by decide)

/-- C8, as stated, fails: on the signed 8-bit kind `add_numbers(0, 100, 3)` fails with
value `100`, and `add_numbers(0, 100, 2)` does not succeed: it fails as well. -/
theorem first_failure_counterexample :
    int8.inRange 0 ∧ int8.inRange 100 ∧ 1 ≤ 3 ∧
      add_numbers int8.limits 0 100 3 = (false, 100) ∧
      add_numbers int8.limits 0 100 (3 - 1) = (false, 100) ∧
      ¬ (add_numbers int8.limits 0 100 (3 - 1)).1 = true := by
  decide

/-- C8, amended: on every integer kind, for representable `start` and `increment` and
`N ≥ 1`: if `add_numbers(start, increment, N)` fails with value `v`, then
`add_numbers(start, increment, N - 1)` returns the same value `v`; it succeeds exactly
when `start + (N - 1) * increment` is in `[MIN, MAX]`, that is when step `N` is the first
unsafe one; and there is a first failing step count `K` with `1 ≤ K ≤ N` for which
`add_numbers(start, increment, K)` fails with `v` and
`add_numbers(start, increment, K - 1)` succeeds with `v`. -/
theorem first_failure_preserves_value (k : IntKind) (start increment : Int) (N : Nat)
    (v : Int) (hs : k.inRange start) (hi : k.inRange increment) (hN : 1 ≤ N)
    (h : add_numbers k.limits start increment N = (false, v)) :
    (add_numbers k.limits start increment (N - 1)).2 = v ∧
      ((add_numbers k.limits start increment (N - 1)).1 = true ↔
        k.inRange (start + ((N - 1 : Nat) : Int) * increment)) ∧
      ∃ K : Nat, 1 ≤ K ∧ K ≤ N ∧
        add_numbers k.limits start increment K = (false, v) ∧
        add_numbers k.limits start increment (K - 1) = (true, v) := by
  have E : ∀ n, add_numbers k.limits start increment n = checked k increment n start :=
    fun n => add_loop_int k increment hi n start hs
  rw [E] at h
  obtain ⟨m, hm, hfu, hv⟩ := checked_failure k increment N start v hs h
  have key := checked_of_firstUnsafe k start increment m hs hfu
  refine ⟨?_, ?_, m + 1, by omega, by omega, ?_, ?_⟩
  · rw [E, key]
    by_cases hle : N - 1 ≤ m
    · have hm' : N - 1 = m := by omega
      rw [hm', if_pos (le_refl m), hv]
    · simp only [hle, if_false, hv]
  · rw [E, key]
    by_cases hle : N - 1 ≤ m
    · simp only [hle, if_true, true_iff]
      exact hfu.1 _ hle
    · simp only [hle, if_false]
      constructor
      · intro hf; exact absurd hf Bool.false_ne_true
      · intro hin
        exact absurd (inRange_between k start increment (N - 1) (m + 1) (by omega) hs hin)
          hfu.2
  · rw [E, key]
    have hnot : ¬ m + 1 ≤ m := by omega
    simp only [hnot, if_false, hv]
  · rw [E, key]
    simp only [Nat.add_sub_cancel, le_refl, if_true, hv]

theorem first_failure_preserves_value_witness :
    (add_numbers int8.limits 0 100 (3 - 1)).2 = 100 ∧
      ((add_numbers int8.limits 0 100 (3 - 1)).1 = true ↔
        int8.inRange (0 + ((3 - 1 : Nat) : Int) * 100)) ∧
      ∃ K : Nat, 1 ≤ K ∧ K ≤ 3 ∧
        add_numbers int8.limits 0 100 K = (false, 100) ∧
        add_numbers int8.limits 0 100 (K - 1) = (true, 100) :=
  first_failure_preserves_value int8 0 100 3 100 (by decide) (by decide) (by decide)
    (by decide)

/-- C9: on every signed integer kind, for representable `start` and `increment` with
`increment ≠ MIN` and every step count `N`, `subtract_numbers(start, -increment, N)`
returns the same success flag and value as `add_numbers(start, increment, N)`. -/
theorem subtract_negated_eq_add (k : IntKind) (start increment : Int) (N : Nat)
    (hk : k.signed = true) (hs : k.inRange start) (hi : k.inRange increment)
    (hne : increment ≠ k.MIN) :
    subtract_numbers k.limits start (-increment) N =
      add_numbers k.limits start increment N := by
  have hneg : k.inRange (-increment) := by
    unfold IntKind.inRange IntKind.MIN IntKind.MAX at *
    simp only [hk, if_true] at *
    constructor <;> omega
  unfold subtract_numbers add_numbers
  rw [subtract_loop_int k (-increment) hneg N start hs, add_loop_int k increment hi N start hs,
    neg_neg]

theorem subtract_negated_eq_add_witness :
    subtract_numbers int8.limits 100 (-(-127)) 2 = add_numbers int8.limits 100 (-127) 2 :=
  subtract_negated_eq_add int8 100 (-127) 2 (by decide) (by decide) (by decide) (by decide)

/-- C10: on every integer kind (signed and unsigned, 8, 16, 32 and 64 bits), with
`increment = MAX / 5`, `add_numbers(0, MAX / 5, 5)` is `(true, 5 * (MAX / 5))` and
`add_numbers(0, MAX / 5, 6)` is `(false, 5 * (MAX / 5))`; these are the two results
`test_overflow` obtains; on the signed 8-bit kind `add_numbers(0, 25, 5) = (true, 125)`
and `add_numbers(0, 25, 6) = (false, 125)`. -/
theorem harness_overflow_boundary (k : IntKind) :
    (add_numbers k.limits 0 (k.MAX / 5) 5 = (true, 5 * (k.MAX / 5)) ∧
        add_numbers k.limits 0 (k.MAX / 5) 6 = (false, 5 * (k.MAX / 5))) ∧
      test_overflow k = ((true, 5 * (k.MAX / 5)), (false, 5 * (k.MAX / 5))) ∧
      (add_numbers int8.limits 0 25 5 = (true, 125) ∧
        add_numbers int8.limits 0 25 6 = (false, 125)) := by
  rcases k with ⟨s, w⟩
  cases s <;> cases w <;> decide

/-! ## Boundary scenarios of subtraction -/

/-- C11, as stated, fails: on the unsigned 8-bit kind `subtract_numbers(10, 3, 4)` is
`(false, 1)`, not `(true, 1)`; the fourth subtraction, `1 - 3`, is the unsafe one. -/
theorem subtract_uint8_four_steps_fail :
    subtract_numbers uint8.limits 10 3 4 = (false, 1) ∧
      ¬ subtract_numbers uint8.limits 10 3 4 = (true, 1) ∧
      ¬ uint8.inRange (10 - (4 : Nat) * 3) := by
  decide

/-- C11, amended: on the unsigned 8-bit kind `subtract_numbers(10, 3, 3)` is `(true, 1)`:
three successive subtractions of 3 starting from 10 stay in range, the accumulator going
through `10, 7, 4, 1`; with four steps the call fails and returns `(false, 1)`. -/
theorem subtract_uint8_in_range :
    subtract_numbers uint8.limits 10 3 3 = (true, 1) ∧
      subtract_states uint8.limits 3 3 10 = [10, 7, 4, 1] ∧
      subtract_numbers uint8.limits 10 3 4 = (false, 1) := by
  decide

/-- C12: on every unsigned integer kind, for representable `start` and `decrement > 0`
and every step count `n`, `subtract_numbers(start, decrement, n)` is
`(true, start - n * decrement)` when `n * decrement ≤ start` and
`(false, start mod decrement)` otherwise, a representable value and not a wrapped one;
on the unsigned 8-bit kind `subtract_numbers(10, 3, 5) = (false, 1)`; and with the
inputs of `test_underflow`, five steps succeed and six fail with the five-step value. -/
theorem unsigned_subtract (k : IntKind) (start decrement : Int) (n : Nat)
    (hk : k.signed = false) (hs : k.inRange start) (hd : k.inRange decrement)
    (hpos : 0 < decrement) :
    (n * decrement ≤ start →
        subtract_numbers k.limits start decrement n = (true, start - n * decrement)) ∧
      (start < n * decrement →
        subtract_numbers k.limits start decrement n = (false, start % decrement)) ∧
      k.inRange (start % decrement) ∧
      subtract_numbers uint8.limits 10 3 5 = (false, 1) ∧
      test_underflow k =
        ((true, k.MAX - 5 * (k.MAX / 5)), (false, k.MAX - 5 * (k.MAX / 5))) := by
  have hmin : k.MIN = 0 := by simp [IntKind.MIN, hk]
  have hs0 : 0 ≤ start := hmin ▸ hs.1
  have hmod0 : 0 ≤ start % decrement := Int.emod_nonneg _ (ne_of_gt hpos)
  have hmodle : start % decrement ≤ start := by
    rcases lt_or_le start decrement with h | h
    · rw [Int.emod_eq_of_lt hs0 h]
    · exact (Int.emod_lt_of_pos start hpos).le.trans h
  have hn0 : (0 : Int) ≤ n * decrement := mul_nonneg (by exact_mod_cast Nat.zero_le n) hpos.le
  refine ⟨?_, ?_, ⟨hmin ▸ hmod0, le_trans hmodle hs.2⟩, by decide, ?_⟩
  · intro hle
    unfold subtract_numbers
    rw [subtract_loop_int k decrement hd n start hs]
    have hin : k.inRange (start + n * -decrement) := by
      constructor
      · rw [hmin]; linarith
      · have := hs.2; linarith
    rw [checked_true k (-decrement) n start hs hin]
    congr 1; ring
  · intro hlt
    unfold subtract_numbers
    rw [subtract_loop_int k decrement hd n start hs]
    have hbad : ¬ k.inRange (start + n * -decrement) := by
      intro h
      have := h.1
      rw [hmin] at this; linarith
    obtain ⟨m, _, hfu, hv⟩ := checked_false k (-decrement) n start hs hbad
    have h1 : 0 ≤ start + (m : Int) * -decrement := hmin ▸ (hfu.1 m (le_refl m)).1
    have h2 : start + (m : Int) * -decrement < decrement := by
      by_contra hge
      apply hfu.2
      have hm0 : (0 : Int) ≤ (m : Int) * decrement :=
        mul_nonneg (by exact_mod_cast Nat.zero_le m) hpos.le
      constructor
      · rw [hmin]; push_cast; linarith
      · have := hs.2; push_cast; linarith
    have e : start + (m : Int) * -decrement = start + (-(m : Int)) * decrement := by ring
    rw [hv]
    congr 1
    rw [← Int.emod_eq_of_lt h1 h2, e, Int.add_mul_emod_self]
  · rcases k with ⟨s, w⟩
    simp only at hk
    subst hk
    cases w <;> decide

theorem unsigned_subtract_witness :
    ((5 : Nat) * (3 : Int) ≤ 10 →
        subtract_numbers uint8.limits 10 3 5 = (true, (10 : Int) - (5 : Nat) * 3)) ∧
      ((10 : Int) < (5 : Nat) * 3 →
        subtract_numbers uint8.limits 10 3 5 = (false, 10 % 3)) ∧
      uint8.inRange (10 % 3) ∧
      subtract_numbers uint8.limits 10 3 5 = (false, 1) ∧
      test_underflow uint8 =
        ((true, uint8.MAX - 5 * (uint8.MAX / 5)), (false, uint8.MAX - 5 * (uint8.MAX / 5))) :=
  unsigned_subtract uint8 10 3 5 (by decide) (by decide) (by decide) (by decide)

/-- C13, what the code does: on every signed integer kind the two calls of
`test_underflow` both succeed.  With `start = MAX` and `decrement = MAX / 5`, five steps
give `MAX - 5 * (MAX / 5)` and the sixth step is accepted as well, giving
`MAX - 6 * (MAX / 5)`, which is still above `MIN`: the call labelled "With Underflow"
reports no underflow. -/
theorem signed_underflow_harness_succeeds (w : Width) :
    test_underflow ⟨true, w⟩ =
        ((true, (IntKind.mk true w).MAX - 5 * ((IntKind.mk true w).MAX / 5)),
         (true, (IntKind.mk true w).MAX - 6 * ((IntKind.mk true w).MAX / 5))) ∧
      (IntKind.mk true w).inRange
        ((IntKind.mk true w).MAX - 6 * ((IntKind.mk true w).MAX / 5)) ∧
      subtract_numbers int8.limits 127 25 6 = (true, -23) := by
  cases w <;> decide

/-! ## The floating-point kinds -/

/-- The halving computation of `bitsAux` gives the number of binary digits. -/
theorem bitsAux_eq_size : ∀ (k n : Nat), n < 2 ^ 2 ^ k → bitsAux k n = Nat.size n := by
  intro k
  induction k with
  | zero =>
    intro n hn
    have hn2 : n < 2 := by simpa using hn
    interval_cases n
    · simp [bitsAux]
    · simp [bitsAux, Nat.size_one]
  | succ k ih =>
    intro n hn
    have hpow : 2 ^ 2 ^ (k + 1) = 2 ^ 2 ^ k * 2 ^ 2 ^ k := by
      rw [← pow_add, pow_succ, mul_two]
    have hK : 0 < 2 ^ 2 ^ k := by positivity
    unfold bitsAux
    rw [Nat.shiftRight_eq_div_pow]
    by_cases h : n / 2 ^ 2 ^ k = 0
    · rw [if_pos h]
      exact ih n ((Nat.div_eq_zero_iff hK).1 h)
    · rw [if_neg h]
      have hm : n / 2 ^ 2 ^ k < 2 ^ 2 ^ k :=
        Nat.div_lt_of_lt_mul (by rw [← hpow]; exact hn)
      rw [ih _ hm]
      have hpos : 0 < Nat.size (n / 2 ^ 2 ^ k) := Nat.size_pos.2 (Nat.pos_of_ne_zero h)
      have hlow : 2 ^ (Nat.size (n / 2 ^ 2 ^ k) - 1) ≤ n / 2 ^ 2 ^ k :=
        Nat.lt_size.1 (Nat.sub_lt hpos Nat.one_pos)
      have hup : n / 2 ^ 2 ^ k < 2 ^ Nat.size (n / 2 ^ 2 ^ k) := Nat.lt_size_self _
      generalize Nat.size (n / 2 ^ 2 ^ k) = t at hpos hlow hup ⊢
      obtain ⟨t, rfl⟩ : ∃ t', t = t' + 1 := ⟨t - 1, by omega⟩
      simp only [Nat.add_sub_cancel] at hlow
      apply le_antisymm
      · have h1 : 2 ^ (2 ^ k + t) ≤ n := by
          rw [pow_add, mul_comm]
          exact le_trans (Nat.mul_le_mul_right _ hlow) (Nat.div_mul_le_self n _)
        have := Nat.lt_size.2 h1
        omega
      · apply Nat.size_le.2
        have h2 : n < 2 ^ (t + 1) * 2 ^ 2 ^ k := (Nat.div_lt_iff_lt_mul hK).1 hup
        rw [pow_add, mul_comm]
        exact h2

/-- The function `bitLength` is the number of binary digits, `Nat.size`. -/
theorem bitLength_eq_size (n : Nat) (hn : n < 2 ^ 2 ^ 18) : bitLength n = Nat.size n :=
  bitsAux_eq_size 18 n hn

/-- The rounded value is a nearest one: it differs from `n / d` by at most half a unit in
the last place. -/
theorem roundNE_nearest (p n d : Nat) (hd : 0 < d) :
    2 * (roundNE p n d * d) ≤ 2 * n + d <<< (bitLength (n / d) - p) ∧
      2 * n ≤ 2 * (roundNE p n d * d) + d <<< (bitLength (n / d) - p) := by
  unfold roundNE
  simp only
  generalize bitLength (n / d) - p = s
  have hD : 0 < d <<< s := by rw [Nat.shiftLeft_eq]; positivity
  generalize hDdef : d <<< s = D at *
  have hdm := Nat.div_add_mod n D
  have hr := Nat.mod_lt n hD
  have e : ∀ x : Nat, x <<< s * d = x * D := by
    intro x; rw [Nat.shiftLeft_eq, ← hDdef, Nat.shiftLeft_eq]; ring
  rw [e]
  generalize n / D = q at *
  generalize n % D = r at *
  split_ifs <;> constructor <;> nlinarith

/-- Values with at most `p` significant bits are left as they are. -/
theorem roundNE_exact (p q s : Nat) (hq : q < 2 ^ p) (hp : 2 ^ (p - 1) ≤ q)
    (hn : q <<< s < 2 ^ 2 ^ 18) : roundNE p (q <<< s) 1 = q <<< s := by
  have hq0 : q ≠ 0 := by
    have : 0 < 2 ^ (p - 1) := by positivity
    omega
  have hp0 : 0 < p := by
    rcases Nat.eq_zero_or_pos p with h | h
    · subst h; simp at hq; omega
    · exact h
  have hsize : Nat.size q = p := by
    apply le_antisymm (Nat.size_le.2 hq)
    have := Nat.lt_size.2 hp
    omega
  unfold roundNE
  simp only [Nat.div_one]
  rw [bitLength_eq_size _ hn, Nat.size_shiftLeft hq0, hsize, Nat.add_sub_cancel_left,
    Nat.one_shiftLeft]
  have h2 : 0 < 2 ^ s := by positivity
  have hdiv : q <<< s / 2 ^ s = q := by
    rw [Nat.shiftLeft_eq, Nat.mul_div_cancel _ h2]
  have hmod : q <<< s % 2 ^ s = 0 := by
    rw [Nat.shiftLeft_eq, Nat.mul_mod_left]
  rw [hdiv, hmod]
  simp [h2]

/-- Rounding at three significant bits: ties go to the even neighbour, and a value may
round up into the next binade. -/
theorem roundNE_examples :
    roundNE 3 18 1 = 16 ∧ roundNE 3 22 1 = 24 ∧ roundNE 3 19 1 = 20 ∧ roundNE 3 31 1 = 32 ∧
      roundNE 3 5 2 = 2 ∧ roundNE 3 7 2 = 4 ∧ roundNE 3 1001 10 = 96 := by
  decide


/-- In the non-integer branch of `add_numbers`, a negative increment is never rejected
while the accumulator is not below `-max()`: the inner comparison against
`lowest() - increment` is not reached. -/
theorem add_body_negative_unguarded {T : Type} (L : NumericLimits T) (result increment : T)
    (hint : L.is_integer = false) (hpos : L.lt L.zero increment = false)
    (hbelow : L.lt result (L.neg L.max) = false) :
    add_body L result increment = some (L.assign (L.add result increment)) := by
  unfold add_body
  simp [hint, hpos, hbelow]

/-- No finite value, and no NaN, is below `-max()`. -/
theorem not_below_neg_max (f : FloatKind) (a : Int) (ha : -f.MAX ≤ a) :
    f.limits.lt (.fin a) (f.limits.neg f.limits.max) = false ∧
      f.limits.lt .nan (f.limits.neg f.limits.max) = false ∧
      f.limits.lt .pinf (f.limits.neg f.limits.max) = false := by
  refine ⟨?_, rfl, rfl⟩
  simp only [FloatKind.limits, FloatKind.neg, FloatKind.lt, decide_eq_false_iff_not, not_lt]
  exact ha

/-- C14, what the code does: on every floating-point format, with the accumulator at
`lowest()` and `increment = -max()`, the rule `accumulator < lowest() - increment` holds
(the right-hand side is `0`), yet `add_numbers` does not reject the step: the guard
`result < -max()` is false, the update is executed and the call returns success with
minus infinity.  `subtract_numbers` rejects the same move, a decrement of `max()`, and
returns `(false, lowest())`. -/
theorem float_negative_increment_unchecked (f : FloatKind) :
    f.limits.lt f.limits.lowest (f.limits.sub f.limits.lowest (f.limits.neg f.limits.max))
        = true ∧
      f.limits.lt f.limits.lowest (f.limits.neg f.limits.max) = false ∧
      add_body f.limits f.limits.lowest (f.limits.neg f.limits.max) = some .ninf ∧
      add_numbers f.limits f.limits.lowest (f.limits.neg f.limits.max) 1 = (true, .ninf) ∧
      subtract_body f.limits f.limits.lowest f.limits.max = none ∧
      subtract_numbers f.limits f.limits.lowest f.limits.max 1 = (false, f.limits.lowest) := by
  cases f <;> decide

/-- C15: on every floating-point format, with `increment = max() / 5` as `test_overflow`
computes it, `add_numbers(0.0, increment, 5)` succeeds and returns exactly `max()`, a
finite value, and `add_numbers(0.0, increment, 6)` fails and returns that same five-step
value, not an infinity. -/
theorem float_overflow_boundary (f : FloatKind) :
    add_numbers f.limits (.fin 0) (f.div (.fin f.MAX) (f.ofUnsigned 5)) 5
        = (true, .fin f.MAX) ∧
      add_numbers f.limits (.fin 0) (f.div (.fin f.MAX) (f.ofUnsigned 5)) 6
        = (false, .fin f.MAX) ∧
      (add_numbers f.limits (.fin 0) (f.div (.fin f.MAX) (f.ofUnsigned 5)) 6).2
        = (add_numbers f.limits (.fin 0) (f.div (.fin f.MAX) (f.ofUnsigned 5)) 5).2 ∧
      test_overflow_float f = ((true, .fin f.MAX), (false, .fin f.MAX)) := by
  cases f <;> decide

/-! ## Further properties on the integer kinds -/

/-- C16: on every integer kind, for a representable delta, the bound expressions of the
range checks are representable whenever they are evaluated, and the value the machine
computes for each is the exact one: `MAX - increment` for `increment > 0`,
`MIN - increment` for `increment < 0` (`increment = MIN` included), `MIN + decrement`
for `decrement > 0`, and `MAX + decrement` for `decrement < 0` (`decrement = MIN`
included). -/
theorem bound_expressions_representable (k : IntKind) (delta : Int)
    (hd : k.inRange delta) :
    (0 < delta → k.inRange (k.MAX - delta) ∧
        k.limits.sub k.limits.max delta = k.MAX - delta) ∧
      (delta < 0 → k.inRange (k.MIN - delta) ∧
        k.limits.sub k.limits.min delta = k.MIN - delta) ∧
      (0 < delta → k.inRange (k.MIN + delta) ∧
        k.limits.add k.limits.min delta = k.MIN + delta) ∧
      (delta < 0 → k.inRange (k.MAX + delta) ∧
        k.limits.add k.limits.max delta = k.MAX + delta) := by
  rcases k with ⟨s, w⟩
  cases s <;> cases w <;>
    simp only [IntKind.limits, IntKind.inRange, IntKind.MIN, IntKind.MAX, wrap,
      IntKind.arithSigned, IntKind.arithBits, Width.bits] at * <;>
    norm_num at * <;>
    refine ⟨?_, ?_, ?_, ?_⟩ <;> intro h <;> omega

theorem bound_expressions_representable_witness :
    ((-128 : Int) < 0 → int8.inRange (int8.MIN - -128) ∧
        int8.limits.sub int8.limits.min (-128) = int8.MIN - -128) ∧
      ((-128 : Int) < 0 → int8.inRange (int8.MAX + -128) ∧
        int8.limits.add int8.limits.max (-128) = int8.MAX + -128) :=
  have h := bound_expressions_representable int8 (-128) (by decide)
  ⟨h.2.1, h.2.2.2⟩

/-- A failed run of the addition loop fails with the same value for every larger
step count. -/
theorem add_loop_failure_sticky {T : Type} (L : NumericLimits T) (increment : T) :
    ∀ (n m : Nat) (r v : T), n ≤ m → add_loop L increment n r = (false, v) →
      add_loop L increment m r = (false, v) := by
  intro n
  induction n with
  | zero => intro m r v _ h; exact absurd (Prod.mk.inj h).1 (by decide)
  | succ n ih =>
    intro m r v hnm h
    obtain ⟨m, rfl⟩ : ∃ m', m = m' + 1 := ⟨m - 1, by omega⟩
    unfold add_loop at h ⊢
    cases hb : add_body L r increment with
    | none => rw [hb] at h; exact h
    | some r' => rw [hb] at h; exact ih m r' v (by omega) h

/-- A failed run of the subtraction loop fails with the same value for every larger
step count. -/
theorem subtract_loop_failure_sticky {T : Type} (L : NumericLimits T) (decrement : T) :
    ∀ (n m : Nat) (r v : T), n ≤ m → subtract_loop L decrement n r = (false, v) →
      subtract_loop L decrement m r = (false, v) := by
  intro n
  induction n with
  | zero => intro m r v _ h; exact absurd (Prod.mk.inj h).1 (by decide)
  | succ n ih =>
    intro m r v hnm h
    obtain ⟨m, rfl⟩ : ∃ m', m = m' + 1 := ⟨m - 1, by omega⟩
    unfold subtract_loop at h ⊢
    cases hb : subtract_body L r decrement with
    | none => rw [hb] at h; exact h
    | some r' => rw [hb] at h; exact ih m r' v (by omega) h

/-- C17: failure is sticky in the step count.  On every integer kind, for every start
and delta and all step counts `N ≤ M`: if `add_numbers(start, delta, N)` returns
`(false, v)` then so does `add_numbers(start, delta, M)`, and likewise for
`subtract_numbers`. -/
theorem failure_sticky (k : IntKind) (start delta : Int) (N M : Nat) (v : Int)
    (hNM : N ≤ M) :
    (add_numbers k.limits start delta N = (false, v) →
        add_numbers k.limits start delta M = (false, v)) ∧
      (subtract_numbers k.limits start delta N = (false, v) →
        subtract_numbers k.limits start delta M = (false, v)) :=
  ⟨add_loop_failure_sticky k.limits delta N M start v hNM,
    subtract_loop_failure_sticky k.limits delta N M start v hNM⟩

theorem failure_sticky_witness :
    add_numbers int8.limits 0 100 7 = (false, 100) ∧
      subtract_numbers uint8.limits 10 3 9 = (false, 1) :=
  ⟨(failure_sticky int8 0 100 2 7 100 (by decide)).1 (by decide),
    (failure_sticky uint8 10 3 4 9 1 (by decide)).2 (by decide)⟩

/-- C18: round trip.  On every integer kind, for representable `start` and `delta` and
every step count `n`: if `add_numbers(start, delta, n) = (true, v)` then
`subtract_numbers(v, delta, n) = (true, start)`, and if
`subtract_numbers(start, delta, n) = (true, v)` then
`add_numbers(v, delta, n) = (true, start)`. -/
theorem add_subtract_round_trip (k : IntKind) (start delta : Int) (n : Nat) (v : Int)
    (hs : k.inRange start) (hd : k.inRange delta) :
    (add_numbers k.limits start delta n = (true, v) →
        subtract_numbers k.limits v delta n = (true, start)) ∧
      (subtract_numbers k.limits start delta n = (true, v) →
        add_numbers k.limits v delta n = (true, start)) := by
  unfold add_numbers subtract_numbers
  constructor
  · intro h
    rw [add_loop_int k delta hd n start hs] at h
    obtain ⟨hin, hv⟩ := checked_success k delta n start v hs h
    have hvin : k.inRange v := hv ▸ hin
    have e : v + n * -delta = start := by rw [hv]; ring
    rw [subtract_loop_int k delta hd n v hvin,
      checked_true k (-delta) n v hvin (e ▸ hs), e]
  · intro h
    rw [subtract_loop_int k delta hd n start hs] at h
    obtain ⟨hin, hv⟩ := checked_success k (-delta) n start v hs h
    have hvin : k.inRange v := hv ▸ hin
    have e : v + n * delta = start := by rw [hv]; ring
    rw [add_loop_int k delta hd n v hvin, checked_true k delta n v hvin (e ▸ hs), e]

theorem add_subtract_round_trip_witness :
    subtract_numbers int8.limits 125 25 5 = (true, 0) :=
  (add_subtract_round_trip int8 0 25 5 125 (by decide) (by decide)).1 (by decide)

end NumericOverflows
